import Mathlib

/-!
Verification of the attendance-scanning core of the scanner-bot repository
(src/bots/attbot.py and src/bots/botscanner.py), as a shallow embedding.

Strings are modelled as `List Char`; Python string methods are translated
character by character.  Python regular-expression classes are modelled over
the ASCII range (`\w` as ASCII alphanumerics plus underscore, `\s` as the
standard whitespace characters), which is the range exercised by the
repository's data.
-/

/-- Model of Python `\s` (whitespace) for the characters the bot handles:
space, tab, carriage return, line feed. -/
def isSp (c : Char) : Bool :=
  c == ' ' || c == '\t' || c == '\r' || c == '\n'

/-- Model of Python `\w` (word characters), ASCII range: letters, digits,
underscore. -/
def isWd (c : Char) : Bool :=
  ('a' ≤ c && c ≤ 'z') || ('A' ≤ c && c ≤ 'Z') || ('0' ≤ c && c ≤ '9') || c == '_'

/-- A character kept by `re.sub(r"[^\w\s]", "", name)`: word character or
whitespace. -/
def keepCh (c : Char) : Bool := isWd c || isSp c

/-- Model of Python `str.lower` on one character (ASCII range: `A`-`Z` map to
`a`-`z`, everything else is unchanged). -/
def pyLower (c : Char) : Char :=
  if 65 ≤ c.toNat && c.toNat ≤ 90 then Char.ofNat (c.toNat + 32) else c

/-- One pass of `re.sub(r"\s+", " ", name)`: each maximal run of whitespace
characters is replaced by a single space.  The flag records whether the
previous character belonged to a whitespace run that has already emitted
its space. -/
def collapseWs : List Char → Bool → List Char
  | [], _ => []
  | c :: cs, afterSp =>
    if isSp c then
      if afterSp then collapseWs cs true else ' ' :: collapseWs cs true
    else c :: collapseWs cs false

/-- Remove the trailing run of characters satisfying `p` (the right half of
Python `str.strip`). -/
def dropTrailing (p : Char → Bool) : List Char → List Char
  | [] => []
  | c :: cs =>
    match dropTrailing p cs with
    | [] => if p c then [] else [c]
    | d :: ds => c :: d :: ds

/-- Python `str.strip` with a character class `p`: remove the leading and the
trailing run of characters satisfying `p`. -/
def stripEnds (p : Char → Bool) (l : List Char) : List Char :=
  dropTrailing p (l.dropWhile p)

/-- Python `str.strip()` (no argument): strip surrounding whitespace. -/
def stripWs (l : List Char) : List Char := stripEnds isSp l

/-- Characters stripped by Python `str.strip("- ")`: dash or space. -/
def isDashSp (c : Char) : Bool := c == '-' || c == ' '

/-- Python `line.strip("- ")`. -/
def stripDashSp (l : List Char) : List Char := stripEnds isDashSp l

/-- Python `s.split("\n")`: split on newline characters; the empty string
yields one empty piece. -/
def splitNl : List Char → List (List Char)
  | [] => [[]]
  | c :: cs =>
    if c = '\n' then [] :: splitNl cs
    else
      match splitNl cs with
      | [] => [[c]]
      | w :: ws => (c :: w) :: ws

/-- Does `hay` start with `needle`? (used to model Python substring tests). -/
def beginsWith : List Char → List Char → Bool
  | [], _ => true
  | _ :: _, [] => false
  | n :: ns, h :: hs => n == h && beginsWith ns hs

/-- Python `needle in hay` for strings: substring containment. -/
def containsSub (hay needle : List Char) : Bool :=
  match hay with
  | [] => beginsWith needle []
  | c :: t => beginsWith needle (c :: t) || containsSub t needle

/-- Function `normalize_name` from attbot.py (lines 486-491): lowercase, remove all
characters that are neither word characters nor whitespace, collapse
whitespace runs to one space, strip surrounding whitespace. -/
def normalizeName (l : List Char) : List Char :=
  stripWs (collapseWs ((l.map pyLower).filter keepCh) false)

/-- Function `normalize_name` at the level of whole strings. -/
def normalize_name (s : String) : String :=
  String.mk (normalizeName s.data)

/-- The literal `"accepted"` (the default `response` value and the string the
`pseudo_id` property compares against). -/
def acceptedStr : List Char := "accepted".data

/-- The literal `"declined"`. -/
def declinedStr : List Char := "declined".data

/-- The `"-declined"` suffix appended to pseudo ids of non-accepted entries. -/
def declSuffix : List Char := "-declined".data

/-- Decimal rendering of a Python int inside an f-string. -/
def natToChars (n : Nat) : List Char := (Nat.repr n).data

/-- Dataclass `AttendanceEntry` from attbot.py (lines 214-263).  The timestamp is the
string `datetime.now().isoformat()` produced at construction time; it is
passed in explicitly here since it is an external input. -/
structure AttendanceEntry where
  user_id : List Char
  username : List Char
  event_id : Nat
  response : List Char
  timestamp : List Char
deriving DecidableEq

/-- Property `AttendanceEntry.pseudo_id` (attbot.py lines 237-242):
`f"{event_id}-{user_id}"` when the response is exactly `"accepted"`,
otherwise `f"{event_id}-{user_id}-declined"`. -/
def pseudoId (e : AttendanceEntry) : List Char :=
  if e.response = acceptedStr then natToChars e.event_id ++ ('-' :: e.user_id)
  else (natToChars e.event_id ++ ('-' :: e.user_id)) ++ declSuffix

/-- The `AttendanceLog._entries` dict, as an association list in insertion
order (Python dicts preserve insertion order; new keys are appended). -/
abbrev LedgerState := List (List Char × AttendanceEntry)

/-- Method `AttendanceLog.already_logged` (lines 276-278): key membership test. -/
def alreadyLogged (s : LedgerState) (pid : List Char) : Bool :=
  s.any (fun kv => kv.1 == pid)

/-- Method `AttendanceLog.add_entry` (lines 280-288): insert the entry under its
pseudo id if absent and return `true`, otherwise return `false` without
mutation. -/
def addEntry (s : LedgerState) (e : AttendanceEntry) : Bool × LedgerState :=
  if alreadyLogged s (pseudoId e) then (false, s)
  else (true, s ++ [(pseudoId e, e)])

/-- Method `AttendanceLog.log_attendance` (lines 290-298): build an entry (with the
username stripped of surrounding whitespace and a fresh timestamp `now`) and
add it. -/
def logAttendance (s : LedgerState) (uid uname : List Char) (eid : Nat)
    (resp : List Char) (now : List Char) : Bool × LedgerState :=
  addEntry s ⟨uid, stripWs uname, eid, resp, now⟩

/-- Dataclass `EventEntry` from attbot.py (lines 351-383): accepted and declined are
lists of (normalized name, display name) pairs. -/
structure EventEntry where
  event_id : Nat
  accepted : List (List Char × List Char)
  declined : List (List Char × List Char)
  timestamp : List Char
deriving DecidableEq

/-- Method `EventLog.add_event` (lines 396-400): append, then pop index 0 when the
size exceeds `max_events`. -/
def addEvent (maxEvents : Nat) (evs : List EventEntry) (e : EventEntry) :
    List EventEntry :=
  let evs2 := evs ++ [e]
  if maxEvents < evs2.length then evs2.drop 1 else evs2

/-- A sequence of `add_event` calls against an `EventLog` constructed with
capacity `maxEvents` (its `_events` list starts empty). -/
def runEvents (maxEvents : Nat) (l : List EventEntry) : List EventEntry :=
  l.foldl (addEvent maxEvents) []

/-- Property `EventLog.recent_events` (lines 406-409): a copy of the stored list. -/
def recentEvents (evs : List EventEntry) : List EventEntry := evs

/-- One named field of a Discord embed. -/
structure EmbedField where
  name : List Char
  value : List Char
deriving DecidableEq

/-- The parts of a Discord embed read by `scan_apollo`: the optional
description and the ordered field list. -/
structure Embed where
  description : Option (List Char)
  fields : List EmbedField
deriving DecidableEq

/-- The accepted-field heuristic of `scan_apollo` (attbot.py line 835):
`"accepted" in field.name.lower()`. -/
def acceptedCond (n : List Char) : Bool :=
  containsSub (n.map pyLower) acceptedStr

/-- The declined-field heuristic of `scan_apollo` (attbot.py line 841):
`"declined" in field.name.lower() or "x" in field.name.lower()`. -/
def declinedCond (n : List Char) : Bool :=
  containsSub (n.map pyLower) declinedStr || containsSub (n.map pyLower) ['x']

/-- The inner line loop of `scan_apollo` over one field value (lines 836-839
and 842-845): split on newlines, strip `-` and space characters from both
ends and then surrounding whitespace, and append every non-empty result. -/
def extractFieldLines (v : List Char) (acc : List (List Char)) :
    List (List Char) :=
  (splitNl v).foldl
    (fun a line =>
      let nm := stripWs (stripDashSp line)
      if nm = [] then a else a ++ [nm])
    acc

/-- The field loop of `scan_apollo` (attbot.py lines 831-845): accumulate
attendee and declined raw names over the embed's fields. -/
def scanFields (fields : List EmbedField) : List (List Char) × List (List Char) :=
  fields.foldl
    (fun ad f =>
      let a2 := if acceptedCond f.name then extractFieldLines f.value ad.1 else ad.1
      let d2 := if declinedCond f.name then extractFieldLines f.value ad.2 else ad.2
      (a2, d2))
    ([], [])

/-- The description loop of `scan_apollo` (attbot.py lines 850-855): when a
non-empty description is present, every line that starts with `-` after
whitespace stripping contributes its stripped name to the attendee list. -/
def scanDescription (d : Option (List Char)) (attendees : List (List Char)) :
    List (List Char) :=
  match d with
  | none => attendees
  | some desc =>
    if desc = [] then attendees
    else
      (splitNl desc).foldl
        (fun a line =>
          match stripWs line with
          | [] => a
          | c :: _ =>
            if c = '-' then
              let nm := stripWs (stripDashSp line)
              if nm = [] then a else a ++ [nm]
            else a)
        attendees

/-- Extraction performed by `scan_apollo` for one embed: raw attendee and
declined name lists. -/
def scanEmbed (e : Embed) : List (List Char) × List (List Char) :=
  let ad := scanFields e.fields
  (scanDescription e.description ad.1, ad.2)

/-- The accepted logging loop of `scan_apollo` (attbot.py lines 877-881):
for each (normalized id, pretty name) pair, compute `f"{msg.id}-{user_id}"`,
and when it is not logged yet call `log_attendance` and count it. -/
def logAcceptedPairs (msgId : Nat) (now : List Char)
    (pairs : List (List Char × List Char)) (st : LedgerState × Nat) :
    LedgerState × Nat :=
  pairs.foldl
    (fun sl p =>
      let pid := natToChars msgId ++ ('-' :: p.1)
      if alreadyLogged sl.1 pid then sl
      else ((logAttendance sl.1 p.1 p.2 msgId acceptedStr now).2, sl.2 + 1))
    st

/-- The declined logging loop of `scan_apollo` (attbot.py lines 884-888):
same as the accepted loop with pseudo id `f"{msg.id}-{user_id}-declined"`
and `response="declined"`. -/
def logDeclinedPairs (msgId : Nat) (now : List Char)
    (pairs : List (List Char × List Char)) (st : LedgerState × Nat) :
    LedgerState × Nat :=
  pairs.foldl
    (fun sl p =>
      let pid := (natToChars msgId ++ ('-' :: p.1)) ++ declSuffix
      if alreadyLogged sl.1 pid then sl
      else ((logAttendance sl.1 p.1 p.2 msgId declinedStr now).2, sl.2 + 1))
    st

/-- Processing of one embed of one Apollo message inside `scan_apollo`
(attbot.py lines 825-888): extract the raw lists, normalize them, add the
event record to the event log (capacity 8) and log every pair into the
ledger.  The state is (event log, ledger, logged counter). -/
def processEmbed (msgId : Nat) (now : List Char)
    (st : List EventEntry × LedgerState × Nat) (e : Embed) :
    List EventEntry × LedgerState × Nat :=
  let ad := scanEmbed e
  let normAtt := ad.1.map (fun n => (normalizeName n, n))
  let normDec := ad.2.map (fun n => (normalizeName n, n))
  let evs2 := addEvent 8 st.1 ⟨msgId, normAtt, normDec, now⟩
  let lc2 := logAcceptedPairs msgId now normAtt (st.2.1, st.2.2)
  let lc3 := logDeclinedPairs msgId now normDec lc2
  (evs2, lc3.1, lc3.2)

/-- Per-participant row of `EventLog.get_all_participants` (attbot.py lines
433-446): display name and the accepted/declined counters. -/
structure PStats where
  display_name : List Char
  accepted : Nat
  declined : Nat
deriving DecidableEq

/-- The `summary` dict of `get_all_participants`, as an association list in
insertion order. -/
abbrev PMap := List (List Char × PStats)

/-- Dict lookup on the participant summary. -/
def alLookup (k : List Char) : PMap → Option PStats
  | [] => none
  | kv :: rest => if kv.1 = k then some kv.2 else alLookup k rest

/-- Dict item update `summary[k] = f(summary[k])` (keys are unique in a
Python dict; mapping over all matches is equivalent). -/
def updateKey (k : List Char) (f : PStats → PStats) (m : PMap) : PMap :=
  m.map (fun kv => if kv.1 = k then (kv.1, f kv.2) else kv)

/-- The counter increment of `get_all_participants`:
`summary[norm_name]["accepted"] += 1` (when `isAcc`) or
`summary[norm_name]["declined"] += 1`. -/
def bumpStat (isAcc : Bool) (s : PStats) : PStats :=
  if isAcc then { s with accepted := s.accepted + 1 }
  else { s with declined := s.declined + 1 }

/-- One step of the `get_all_participants` fold for a (normalized name,
display name) pair: insert a zero row with the pair's display name when the
key is absent, then increment the accepted (`isAcc = true`) or declined
counter. -/
def procPair (isAcc : Bool) (m : PMap) (p : List Char × List Char) : PMap :=
  let m1 := if (alLookup p.1 m).isSome then m else m ++ [(p.1, ⟨p.2, 0, 0⟩)]
  updateKey p.1 (bumpStat isAcc) m1

/-- Method `EventLog.get_all_participants` (attbot.py lines 433-446): fold over the
windowed events, accepted pairs first, then declined pairs. -/
def getAllParticipants (evts : List EventEntry) : PMap :=
  evts.foldl
    (fun m e => e.declined.foldl (procPair false) (e.accepted.foldl (procPair true) m))
    []

/-- Strict lexicographic order on strings by code point (Python `<` on
`str`). -/
def lexLt : List Char → List Char → Bool
  | [], [] => false
  | [], _ :: _ => true
  | _ :: _, [] => false
  | a :: as2, b :: bs =>
    if a < b then true else if b < a then false else lexLt as2 bs

/-- The sort key comparison of the `leaderboard` command (attbot.py lines
963-967): Python tuple `(-accepted, display_name)` compared strictly. -/
def keyLt (x y : List Char × PStats) : Bool :=
  decide (y.2.accepted < x.2.accepted) ||
    (x.2.accepted == y.2.accepted && lexLt x.2.display_name y.2.display_name)

/-- Stable insertion for the model of Python `sorted`: the new element is
placed before the first strictly greater element, hence after all elements
whose key equals its own. -/
def insSorted (a : List Char × PStats) :
    List (List Char × PStats) → List (List Char × PStats)
  | [] => [a]
  | b :: bs => if keyLt a b then a :: b :: bs else b :: insSorted a bs

/-- Python `sorted(participation_data.items(), key=...)` (attbot.py lines
963-967), modelled as a stable insertion sort (extensionally equal to any
stable sort under the same key). -/
def pySort (l : List (List Char × PStats)) : List (List Char × PStats) :=
  l.foldl (fun acc x => insSorted x acc) []

/-- Variable `sorted_participants` of the `leaderboard` command: the full ranked list
printed as the primary ranking (attbot.py lines 963-977 print every entry of
this list). -/
def sortedParticipants (evts : List EventEntry) : List (List Char × PStats) :=
  pySort (getAllParticipants evts)

/-- The `declined_only` list of the `leaderboard` command (attbot.py lines
980-983): entries of the sorted list with zero accepted and positive
declined count. -/
def declinedOnlyList (evts : List EventEntry) : List (List Char × PStats) :=
  (sortedParticipants evts).filter
    (fun x => x.2.accepted == 0 && decide (0 < x.2.declined))

/-- The first character, if any, is not whitespace. -/
def firstNotSp : List Char → Bool
  | [] => true
  | c :: _ => !(isSp c)

/-- The last character, if any, is not whitespace. -/
def trailNotSp : List Char → Bool
  | [] => true
  | [c] => !(isSp c)
  | _ :: c :: cs => trailNotSp (c :: cs)

/-- No two adjacent whitespace characters. -/
def noDoubleSp : List Char → Bool
  | [] => true
  | c :: cs => (!(isSp c) || firstNotSp cs) && noDoubleSp cs

/-- A character that can occur in the output of `normalize_name`: kept by the
punctuation filter, fixed by lowercasing, and a plain space if whitespace. -/
def goodCh (c : Char) : Bool :=
  keepCh c && (pyLower c == c) && (!(isSp c) || c == ' ')

/-- Characterization of the strings fixed by `normalize_name`. -/
def normalForm (l : List Char) : Bool :=
  l.all goodCh && noDoubleSp l && firstNotSp l && trailNotSp l

/-- One tagged (normalized name, display name) pair of `flatPairs`; the tag
is true for accepted pairs. -/
def procTag (m : PMap) (tp : Bool × (List Char × List Char)) : PMap :=
  procPair tp.1 m tp.2

/-- The pairs of a window of events in the exact order `get_all_participants`
processes them: per event, accepted pairs first (tag true), then declined
pairs (tag false). -/
def flatPairs (evts : List EventEntry) : List (Bool × (List Char × List Char)) :=
  evts.foldr
    (fun e acc =>
      e.accepted.map (fun p => (true, p)) ++
        e.declined.map (fun p => (false, p)) ++ acc)
    []

/-- Number of occurrences of key `k` with tag `isAcc` in a tagged pair
list. -/
def cntTag (isAcc : Bool) (k : List Char)
    (ps : List (Bool × (List Char × List Char))) : Nat :=
  (ps.filter (fun tp => decide (tp.1 = isAcc ∧ tp.2.1 = k))).length

/-- Display name of the first occurrence of key `k` in a tagged pair
list. -/
def firstDisp (k : List Char)
    (ps : List (Bool × (List Char × List Char))) : Option (List Char) :=
  ((ps.filter (fun tp => decide (tp.2.1 = k))).head?).map (fun tp => tp.2.2)

theorem alreadyLogged_iff (s : LedgerState) (pid : List Char) :
    alreadyLogged s pid = true ↔ pid ∈ s.map Prod.fst := by
  induction s with
  | nil => simp [alreadyLogged]
  | cons kv rest ih =>
    simp only [alreadyLogged, List.any_cons, Bool.or_eq_true, beq_iff_eq,
      List.map_cons, List.mem_cons] at ih ⊢
    rw [ih]
    exact or_congr eq_comm Iff.rfl

/-- Claim C1: the first `log_attendance` call producing a pseudo id inserts
exactly one `AttendanceEntry` (appended under that pseudo id) and returns
true; any later call producing the same pseudo id returns false and leaves
the ledger unchanged; distinctness of pseudo ids in the ledger is
preserved, so at most one entry per pseudo id ever exists. -/
theorem log_attendance_write_once (s : LedgerState) (uid uname : List Char)
    (eid : Nat) (resp now : List Char) :
    (alreadyLogged s (pseudoId ⟨uid, stripWs uname, eid, resp, now⟩) = false →
      logAttendance s uid uname eid resp now =
        (true, s ++ [(pseudoId ⟨uid, stripWs uname, eid, resp, now⟩,
          ⟨uid, stripWs uname, eid, resp, now⟩)])) ∧
    (alreadyLogged s (pseudoId ⟨uid, stripWs uname, eid, resp, now⟩) = true →
      logAttendance s uid uname eid resp now = (false, s)) ∧
    (List.Nodup (s.map Prod.fst) →
      List.Nodup (((logAttendance s uid uname eid resp now).2).map Prod.fst)) := by
  refine ⟨?_, ?_, ?_⟩
  · intro h; simp [logAttendance, addEntry, h]
  · intro h; simp [logAttendance, addEntry, h]
  · intro h
    by_cases hl :
        alreadyLogged s (pseudoId ⟨uid, stripWs uname, eid, resp, now⟩) = true
    · have hstep : logAttendance s uid uname eid resp now = (false, s) := by
        simp [logAttendance, addEntry, hl]
      rw [hstep]
      exact h
    · have hl' :
          alreadyLogged s (pseudoId ⟨uid, stripWs uname, eid, resp, now⟩) = false :=
        Bool.eq_false_iff.mpr hl
      have hnm :
          pseudoId ⟨uid, stripWs uname, eid, resp, now⟩ ∉ s.map Prod.fst := by
        intro hmem
        exact hl ((alreadyLogged_iff s _).mpr hmem)
      have hstep : logAttendance s uid uname eid resp now =
          (true, s ++ [(pseudoId ⟨uid, stripWs uname, eid, resp, now⟩,
            ⟨uid, stripWs uname, eid, resp, now⟩)]) := by
        simp [logAttendance, addEntry, hl']
      rw [hstep, List.map_append]
      refine List.Nodup.append h (List.nodup_singleton _) ?_
      intro a ha hb
      have hb' : a = pseudoId ⟨uid, stripWs uname, eid, resp, now⟩ := by
        rw [show List.map Prod.fst
            [(pseudoId ⟨uid, stripWs uname, eid, resp, now⟩,
              (⟨uid, stripWs uname, eid, resp, now⟩ : AttendanceEntry))] =
            [pseudoId ⟨uid, stripWs uname, eid, resp, now⟩] from rfl,
          List.mem_singleton] at hb
        exact hb
      exact hnm (hb' ▸ ha)

/-- Witness for C1 at a concrete ledger: logging jane for event 1 succeeds
once, and a second call with the same pseudo id fails and changes nothing. -/
theorem log_attendance_write_once_w :
    logAttendance [] "jane".data "Jane".data 1 acceptedStr "t0".data =
      (true, [(pseudoId ⟨"jane".data, stripWs "Jane".data, 1, acceptedStr, "t0".data⟩,
        ⟨"jane".data, stripWs "Jane".data, 1, acceptedStr, "t0".data⟩)]) ∧
    logAttendance
        [(pseudoId ⟨"jane".data, stripWs "Jane".data, 1, acceptedStr, "t0".data⟩,
          ⟨"jane".data, stripWs "Jane".data, 1, acceptedStr, "t0".data⟩)]
        "jane".data "Jane Two".data 1 acceptedStr "t1".data =
      (false, [(pseudoId ⟨"jane".data, stripWs "Jane".data, 1, acceptedStr, "t0".data⟩,
        ⟨"jane".data, stripWs "Jane".data, 1, acceptedStr, "t0".data⟩)]) :=
  ⟨(log_attendance_write_once [] "jane".data "Jane".data 1 acceptedStr
      "t0".data).1 (by decide),
   (log_attendance_write_once
      [(pseudoId ⟨"jane".data, stripWs "Jane".data, 1, acceptedStr, "t0".data⟩,
        ⟨"jane".data, stripWs "Jane".data, 1, acceptedStr, "t0".data⟩)]
      "jane".data "Jane Two".data 1 acceptedStr "t1".data).2.1 (by decide)⟩

theorem runEvents_aux (N : Nat) (l : List EventEntry) :
    ∀ acc : List EventEntry, acc.length ≤ N →
      l.foldl (addEvent N) acc = (acc ++ l).drop (acc.length + l.length - N) := by
  induction l with
  | nil =>
    intro acc h
    simp [Nat.sub_eq_zero_of_le h]
  | cons e rest ih =>
    intro acc h
    rw [List.foldl_cons]
    by_cases hlen : N < (acc ++ [e]).length
    · have hacc : acc.length = N := by
        simp at hlen; omega
      have h1 : addEvent N acc e = (acc ++ [e]).drop 1 := by
        simp only [addEvent, if_pos hlen]
      have hlen1 : ((acc ++ [e]).drop 1).length ≤ N := by
        simp [List.length_drop]; omega
      rw [h1, ih _ hlen1]
      have e1 : ((acc ++ [e]) ++ rest).drop 1 = ((acc ++ [e]).drop 1) ++ rest :=
        List.drop_append_of_le_length (by simp)
      rw [← e1, List.drop_drop]
      have e2 : (acc ++ [e]) ++ rest = acc ++ e :: rest := by
        simp
      rw [e2]
      have e3 : ((acc ++ [e]).drop 1).length = acc.length := by simp
      rw [e3]
      congr 1
      simp only [List.length_cons]
      omega
    · have h1 : addEvent N acc e = acc ++ [e] := by
        simp only [addEvent, if_neg hlen]
      have hlen1 : (acc ++ [e]).length ≤ N := Nat.le_of_not_lt hlen
      rw [h1, ih _ hlen1]
      have e2 : (acc ++ [e]) ++ rest = acc ++ e :: rest := by simp
      rw [e2]
      congr 1
      simp
      omega

/-- Claim C2: an event log of capacity `N` never stores more than `N`
events; after any sequence of additions the retained list is exactly the
most recent `N` records in addition order (the oldest evicted first), and in
particular 10 sequential additions at capacity 8 retain records 3..10. -/
theorem event_window_bounded (N : Nat) (l : List EventEntry) :
    recentEvents (runEvents N l) = l.drop (l.length - N) ∧
    (runEvents N l).length ≤ N ∧
    runEvents 8 ((List.range 10).map (fun i => ⟨i + 1, [], [], "t".data⟩)) =
      ((List.range 10).map (fun i => ⟨i + 1, [], [], "t".data⟩)).drop 2 := by
  have hmain : runEvents N l = l.drop (l.length - N) := by
    have := runEvents_aux N l [] (by simp)
    simpa [runEvents] using this
  refine ⟨hmain, ?_, by decide⟩
  rw [hmain]
  simp [List.length_drop]
  omega

theorem extractFieldLines_eq (v : List Char) (acc : List (List Char)) :
    extractFieldLines v acc =
      acc ++ (splitNl v).filterMap (fun line =>
        let nm := stripWs (stripDashSp line)
        if nm = [] then none else some nm) := by
  unfold extractFieldLines
  generalize splitNl v = lines
  induction lines generalizing acc with
  | nil => simp
  | cons l ls ih =>
    rw [List.foldl_cons, List.filterMap_cons, ih]
    by_cases hnm : stripWs (stripDashSp l) = [] <;> simp [hnm]

/-- Claim C8 (amended): for a field whose name contains "accepted"
(case-insensitively), each newline-separated line of its value has dash and
space characters stripped from BOTH ends (then surrounding whitespace), and
the result is appended to the attendee list exactly when non-empty. -/
theorem accepted_field_lines (n v : List Char) (h : acceptedCond n = true) :
    (scanFields [⟨n, v⟩]).1 =
      (splitNl v).filterMap (fun line =>
        let nm := stripWs (stripDashSp line)
        if nm = [] then none else some nm) := by
  simp [scanFields, h, extractFieldLines_eq]

/-- Witness for C8 (amended) at a concrete field value. -/
theorem accepted_field_lines_w :
    (scanFields [⟨"Accepted".data, "- Sam-\n \n- Lee".data⟩]).1 =
      (splitNl "- Sam-\n \n- Lee".data).filterMap (fun line =>
        let nm := stripWs (stripDashSp line)
        if nm = [] then none else some nm) :=
  accepted_field_lines "Accepted".data "- Sam-\n \n- Lee".data (by decide)

/-- Counterexample to C8 as stated: a trailing dash is NOT preserved; the
line "- Bob-" yields the name "Bob", not "Bob-". -/
theorem accepted_field_trailing_dash_cx :
    (scanFields [⟨"Accepted ✅".data, "- Bob-".data⟩]).1 = ["Bob".data] ∧
    (scanFields [⟨"Accepted ✅".data, "- Bob-".data⟩]).1 ≠ ["Bob-".data] := by
  decide

/-- Claim C9: a field whose name matches both the accepted heuristic and the
declined/"x" heuristic contributes its non-empty stripped lines to both the
attendee and the declined list. -/
theorem ambiguous_field_both_lists (n v : List Char)
    (h1 : acceptedCond n = true) (h2 : declinedCond n = true) :
    scanFields [⟨n, v⟩] = (extractFieldLines v [], extractFieldLines v []) := by
  simp [scanFields, h1, h2]

/-- Witness for C9: the field name "x-accepted" matches both heuristics, so
its lines land in both lists. -/
theorem ambiguous_field_both_lists_w :
    scanFields [⟨"x-accepted".data, "- Jane\n- Bob".data⟩] =
      (extractFieldLines "- Jane\n- Bob".data [],
       extractFieldLines "- Jane\n- Bob".data []) :=
  ambiguous_field_both_lists "x-accepted".data "- Jane\n- Bob".data
    (by decide) (by decide)

/-- Claim C10: the pseudo id carries the "-declined" suffix for every
response other than exactly "accepted", so a `log_attendance` call with any
third response string for an (event, key) pair already logged as declined
returns false and stores nothing. -/
theorem nonaccepted_response_declined_suffix (s : LedgerState)
    (uid uname : List Char) (eid : Nat) (resp now : List Char)
    (h : resp ≠ acceptedStr) :
    pseudoId ⟨uid, stripWs uname, eid, resp, now⟩ =
      (natToChars eid ++ ('-' :: uid)) ++ declSuffix ∧
    (alreadyLogged s ((natToChars eid ++ ('-' :: uid)) ++ declSuffix) = true →
      logAttendance s uid uname eid resp now = (false, s)) := by
  have hpid : pseudoId ⟨uid, stripWs uname, eid, resp, now⟩ =
      (natToChars eid ++ ('-' :: uid)) ++ declSuffix := by
    simp [pseudoId, h]
  refine ⟨hpid, ?_⟩
  intro hl
  have hl2 : alreadyLogged s (pseudoId ⟨uid, stripWs uname, eid, resp, now⟩) = true := by
    rw [hpid]
    exact hl
  simp [logAttendance, addEntry, hl2]

/-- Witness for C10: response "tentative" for bob at event 7 collides with
the declined entry already present and is dropped. -/
theorem nonaccepted_response_declined_suffix_w :
    pseudoId ⟨"bob".data, stripWs "Bob".data, 7, "tentative".data, "t2".data⟩ =
      (natToChars 7 ++ ('-' :: "bob".data)) ++ declSuffix ∧
    (alreadyLogged
        [((natToChars 7 ++ ('-' :: "bob".data)) ++ declSuffix,
          ⟨"bob".data, stripWs "Bob".data, 7, declinedStr, "t1".data⟩)]
        ((natToChars 7 ++ ('-' :: "bob".data)) ++ declSuffix) = true →
      logAttendance
        [((natToChars 7 ++ ('-' :: "bob".data)) ++ declSuffix,
          ⟨"bob".data, stripWs "Bob".data, 7, declinedStr, "t1".data⟩)]
        "bob".data "Bob".data 7 "tentative".data "t2".data =
      (false,
        [((natToChars 7 ++ ('-' :: "bob".data)) ++ declSuffix,
          ⟨"bob".data, stripWs "Bob".data, 7, declinedStr, "t1".data⟩)])) :=
  nonaccepted_response_declined_suffix
    [((natToChars 7 ++ ('-' :: "bob".data)) ++ declSuffix,
      ⟨"bob".data, stripWs "Bob".data, 7, declinedStr, "t1".data⟩)]
    "bob".data "Bob".data 7 "tentative".data "t2".data (by decide)

/-- Claim C3: the end-to-end scenario: one embed with an "Accepted ✅" field
"- Jane\n- Bob" and a "Declined ❌" field "- Ray", event id 1001, no
description: extraction yields attendees Jane, Bob and declined Ray, and
logging into an empty ledger yields exactly the three pseudo ids
1001-jane, 1001-bob and 1001-ray-declined. -/
theorem end_to_end_scenario :
    scanEmbed ⟨none, [⟨"Accepted ✅".data, "- Jane\n- Bob".data⟩,
        ⟨"Declined ❌".data, "- Ray".data⟩]⟩ =
      (["Jane".data, "Bob".data], ["Ray".data]) ∧
    (processEmbed 1001 "t0".data ([], [], 0)
        ⟨none, [⟨"Accepted ✅".data, "- Jane\n- Bob".data⟩,
          ⟨"Declined ❌".data, "- Ray".data⟩]⟩).2.1.map Prod.fst =
      ["1001-jane".data, "1001-bob".data, "1001-ray-declined".data] ∧
    (processEmbed 1001 "t0".data ([], [], 0)
        ⟨none, [⟨"Accepted ✅".data, "- Jane\n- Bob".data⟩,
          ⟨"Declined ❌".data, "- Ray".data⟩]⟩).2.1.length = 3 := by
  decide

theorem pyLower_of_upper (c : Char) (h : (65 ≤ c.toNat && c.toNat ≤ 90) = true) :
    pyLower c = Char.ofNat (c.toNat + 32) := by
  unfold pyLower
  rw [if_pos h]

theorem pyLower_upper_shift (n : Nat) (ha : 65 ≤ n) (hb : n ≤ 90) :
    pyLower (Char.ofNat (n + 32)) = Char.ofNat (n + 32) := by
  interval_cases n <;> decide

theorem pyLower_idem (c : Char) : pyLower (pyLower c) = pyLower c := by
  by_cases h : (65 ≤ c.toNat && c.toNat ≤ 90) = true
  · have hb := Bool.and_eq_true_iff.mp h
    have h1 : 65 ≤ c.toNat := of_decide_eq_true hb.1
    have h2 : c.toNat ≤ 90 := of_decide_eq_true hb.2
    rw [pyLower_of_upper c h]
    exact pyLower_upper_shift c.toNat h1 h2
  · have hfix : pyLower c = c := by
      unfold pyLower
      rw [if_neg h]
    rw [hfix, hfix]

theorem collapseWs_mem : ∀ (L : List Char) (b : Bool) (c : Char),
    c ∈ collapseWs L b → c = ' ' ∨ (c ∈ L ∧ isSp c = false) := by
  intro L
  induction L with
  | nil =>
    intro b c hc
    simp [collapseWs] at hc
  | cons d ds ih =>
    intro b c hc
    unfold collapseWs at hc
    by_cases hd : isSp d = true
    · rw [if_pos hd] at hc
      cases b with
      | true =>
        rw [if_pos rfl] at hc
        rcases ih true c hc with h1 | h1
        · exact Or.inl h1
        · exact Or.inr ⟨List.mem_cons_of_mem d h1.1, h1.2⟩
      | false =>
        rw [if_neg (by simp)] at hc
        rcases List.mem_cons.mp hc with rfl | hmem
        · exact Or.inl rfl
        · rcases ih true c hmem with h1 | h1
          · exact Or.inl h1
          · exact Or.inr ⟨List.mem_cons_of_mem d h1.1, h1.2⟩
    · rw [if_neg hd] at hc
      rcases List.mem_cons.mp hc with heq | hmem
      · refine Or.inr ⟨List.mem_cons.mpr (Or.inl heq), ?_⟩
        rw [heq]
        exact Bool.eq_false_iff.mpr hd
      · rcases ih false c hmem with h1 | h1
        · exact Or.inl h1
        · exact Or.inr ⟨List.mem_cons_of_mem d h1.1, h1.2⟩

theorem firstNotSp_collapse (L : List Char) :
    firstNotSp (collapseWs L true) = true := by
  induction L with
  | nil => rfl
  | cons d ds ih =>
    unfold collapseWs
    by_cases hd : isSp d = true
    · rw [if_pos hd, if_pos rfl]
      exact ih
    · rw [if_neg hd]
      simp [firstNotSp, Bool.eq_false_iff.mpr hd]

theorem noDoubleSp_collapse (L : List Char) :
    ∀ b, noDoubleSp (collapseWs L b) = true := by
  induction L with
  | nil => intro b; rfl
  | cons d ds ih =>
    intro b
    unfold collapseWs
    by_cases hd : isSp d = true
    · rw [if_pos hd]
      cases b with
      | true =>
        rw [if_pos rfl]
        exact ih true
      | false =>
        rw [if_neg (by simp)]
        unfold noDoubleSp
        rw [firstNotSp_collapse, ih true]
        simp
    · rw [if_neg hd]
      unfold noDoubleSp
      rw [ih false]
      simp [Bool.eq_false_iff.mpr hd]

theorem mem_dropWhile (p : Char → Bool) (l : List Char) (c : Char)
    (h : c ∈ l.dropWhile p) : c ∈ l := by
  induction l with
  | nil => exact h
  | cons d ds ih =>
    rw [List.dropWhile_cons] at h
    by_cases hd : p d = true
    · rw [if_pos hd] at h
      exact List.mem_cons_of_mem d (ih h)
    · rw [if_neg hd] at h
      exact h

theorem firstNotSp_dropWhile (l : List Char) :
    firstNotSp (l.dropWhile isSp) = true := by
  induction l with
  | nil => rfl
  | cons d ds ih =>
    rw [List.dropWhile_cons]
    by_cases hd : isSp d = true
    · rw [if_pos hd]
      exact ih
    · rw [if_neg hd]
      simp [firstNotSp, Bool.eq_false_iff.mpr hd]

theorem noDoubleSp_tail (c : Char) (cs : List Char)
    (h : noDoubleSp (c :: cs) = true) : noDoubleSp cs = true := by
  unfold noDoubleSp at h
  exact (Bool.and_eq_true_iff.mp h).2

theorem noDoubleSp_dropWhile (p : Char → Bool) (l : List Char)
    (h : noDoubleSp l = true) : noDoubleSp (l.dropWhile p) = true := by
  induction l with
  | nil => simpa using h
  | cons d ds ih =>
    rw [List.dropWhile_cons]
    by_cases hd : p d = true
    · rw [if_pos hd]
      exact ih (noDoubleSp_tail _ _ h)
    · rw [if_neg hd]
      exact h

theorem mem_dropTrailing (p : Char → Bool) : ∀ (l : List Char) (c : Char),
    c ∈ dropTrailing p l → c ∈ l := by
  intro l
  induction l with
  | nil =>
    intro c h
    exact h
  | cons d ds ih =>
    intro c h
    unfold dropTrailing at h
    split at h
    · by_cases hd : p d = true
      · rw [if_pos hd] at h
        simp at h
      · rw [if_neg hd] at h
        rw [List.mem_singleton] at h
        exact List.mem_cons.mpr (Or.inl h)
    · rename_i e es hds
      rcases List.mem_cons.mp h with heq | hmem
      · exact List.mem_cons.mpr (Or.inl heq)
      · exact List.mem_cons_of_mem d (ih c (by rw [hds]; exact hmem))

theorem head_dropTrailing (p : Char → Bool) (d : Char) (ds : List Char)
    (h : dropTrailing p (d :: ds) ≠ []) :
    ∃ t, dropTrailing p (d :: ds) = d :: t := by
  unfold dropTrailing
  split
  · by_cases hd : p d = true
    · exfalso
      apply h
      unfold dropTrailing
      rename_i hds
      rw [hds, if_pos hd]
    · rw [if_neg hd]
      exact ⟨[], rfl⟩
  · rename_i e es hds
    exact ⟨e :: es, rfl⟩

theorem firstNotSp_dropTrailing (p : Char → Bool) (l : List Char)
    (h : firstNotSp l = true) : firstNotSp (dropTrailing p l) = true := by
  cases l with
  | nil => rfl
  | cons d ds =>
    by_cases hres : dropTrailing p (d :: ds) = []
    · rw [hres]
      rfl
    · obtain ⟨t, ht⟩ := head_dropTrailing p d ds hres
      rw [ht]
      unfold firstNotSp at h ⊢
      exact h

theorem trailNotSp_dropTrailing : ∀ l : List Char,
    trailNotSp (dropTrailing isSp l) = true := by
  intro l
  induction l with
  | nil => rfl
  | cons d ds ih =>
    unfold dropTrailing
    split
    · by_cases hd : isSp d = true
      · rw [if_pos hd]
        rfl
      · rw [if_neg hd]
        unfold trailNotSp
        exact Bool.eq_false_iff.mpr hd ▸ (by simp [Bool.eq_false_iff.mpr hd])
    · rename_i e es hds
      show trailNotSp (d :: e :: es) = true
      unfold trailNotSp
      rw [← hds]
      exact ih

theorem noDoubleSp_dropTrailing (p : Char → Bool) : ∀ (l : List Char),
    noDoubleSp l = true → noDoubleSp (dropTrailing p l) = true := by
  intro l
  induction l with
  | nil =>
    intro _
    rfl
  | cons d ds ih =>
    intro h
    have hparts := Bool.and_eq_true_iff.mp h
    unfold dropTrailing
    split
    · by_cases hd : p d = true
      · rw [if_pos hd]
        rfl
      · rw [if_neg hd]
        simp [noDoubleSp, firstNotSp]
    · rename_i e es hds
      show noDoubleSp (d :: e :: es) = true
      unfold noDoubleSp
      refine Bool.and_eq_true_iff.mpr ⟨?_, ?_⟩
      · rcases Bool.or_eq_true_iff.mp hparts.1 with h1 | h1
        · exact Bool.or_eq_true_iff.mpr (Or.inl h1)
        · refine Bool.or_eq_true_iff.mpr (Or.inr ?_)
          rw [← hds]
          exact firstNotSp_dropTrailing p ds h1
      · rw [← hds]
        exact ih hparts.2

theorem map_fixed_of_mem {f : Char → Char} : ∀ l : List Char,
    (∀ c ∈ l, f c = c) → l.map f = l := by
  intro l
  induction l with
  | nil => intro _; rfl
  | cons d ds ih =>
    intro h
    rw [List.map_cons, h d (List.mem_cons_self _ _),
      ih (fun c hc => h c (List.mem_cons_of_mem _ hc))]

theorem filter_fixed_of_mem {p : Char → Bool} : ∀ l : List Char,
    (∀ c ∈ l, p c = true) → l.filter p = l := by
  intro l
  induction l with
  | nil => intro _; rfl
  | cons d ds ih =>
    intro h
    rw [List.filter_cons, if_pos (h d (List.mem_cons_self _ _)),
      ih (fun c hc => h c (List.mem_cons_of_mem _ hc))]

theorem collapseWs_fixed : ∀ (l : List Char) (b : Bool),
    (∀ c ∈ l, isSp c = true → c = ' ') → noDoubleSp l = true →
    (b = true → firstNotSp l = true) → collapseWs l b = l := by
  intro l
  induction l with
  | nil =>
    intro b _ _ _
    rfl
  | cons d ds ih =>
    intro b hsp hnd hb
    have hndTail : noDoubleSp ds = true := noDoubleSp_tail _ _ hnd
    have hspTail : ∀ c ∈ ds, isSp c = true → c = ' ' :=
      fun c hc => hsp c (List.mem_cons_of_mem _ hc)
    unfold collapseWs
    by_cases hd : isSp d = true
    · have hd' : d = ' ' := hsp d (List.mem_cons_self _ _) hd
      cases b with
      | true =>
        exfalso
        have hfs := hb rfl
        simp [firstNotSp, hd] at hfs
      | false =>
        rw [if_pos hd, if_neg (by simp)]
        have hfs : firstNotSp ds = true := by
          unfold noDoubleSp at hnd
          have h1 := (Bool.and_eq_true_iff.mp hnd).1
          rcases Bool.or_eq_true_iff.mp h1 with h2 | h2
          · rw [hd] at h2
            simp at h2
          · exact h2
        rw [ih true hspTail hndTail (fun _ => hfs), hd']
    · rw [if_neg hd]
      rw [ih false hspTail hndTail (fun hfalse => absurd hfalse (by simp))]

theorem dropWhile_isSp_fixed (l : List Char) (h : firstNotSp l = true) :
    l.dropWhile isSp = l := by
  cases l with
  | nil => rfl
  | cons d ds =>
    simp only [firstNotSp] at h
    have hd : isSp d = false := by
      cases hcase : isSp d
      · rfl
      · simp [hcase] at h
    rw [List.dropWhile_cons, if_neg (by simp [hd])]

theorem dropTrailing_isSp_fixed : ∀ l : List Char,
    trailNotSp l = true → dropTrailing isSp l = l := by
  intro l
  induction l with
  | nil =>
    intro _
    rfl
  | cons d ds ih =>
    intro h
    cases ds with
    | nil =>
      unfold trailNotSp at h
      show (if isSp d then [] else [d]) = [d]
      rw [if_neg (by simp_all)]
    | cons e es =>
      unfold trailNotSp at h
      have hds : dropTrailing isSp (e :: es) = e :: es := ih h
      show (match dropTrailing isSp (e :: es) with
        | [] => if isSp d then [] else [d]
        | f :: fs => d :: f :: fs) = d :: e :: es
      rw [hds]

theorem goodCh_space : goodCh ' ' = true := by decide

theorem normalForm_normalizeName (l : List Char) :
    normalForm (normalizeName l) = true := by
  unfold normalizeName stripWs stripEnds
  unfold normalForm
  refine Bool.and_eq_true_iff.mpr ⟨Bool.and_eq_true_iff.mpr
    ⟨Bool.and_eq_true_iff.mpr ⟨?_, ?_⟩, ?_⟩, ?_⟩
  · refine List.all_eq_true.mpr ?_
    intro c hc
    have hc1 := mem_dropWhile isSp _ c (mem_dropTrailing isSp _ c hc)
    rcases collapseWs_mem _ false c hc1 with heq | hmem
    · rw [heq]
      exact goodCh_space
    · obtain ⟨hmem0, hnsp⟩ := hmem
      have hkeep : keepCh c = true := (List.mem_filter.mp hmem0).2
      obtain ⟨a, _, ha⟩ := List.mem_map.mp (List.mem_filter.mp hmem0).1
      have hfix : pyLower c = c := by
        rw [← ha]
        exact pyLower_idem a
      unfold goodCh
      rw [hkeep, hnsp, hfix]
      simp
  · exact noDoubleSp_dropTrailing isSp _
      (noDoubleSp_dropWhile isSp _ (noDoubleSp_collapse _ false))
  · exact firstNotSp_dropTrailing isSp _ (firstNotSp_dropWhile _)
  · exact trailNotSp_dropTrailing _

theorem normalizeName_fixed (l : List Char) (h : normalForm l = true) :
    normalizeName l = l := by
  unfold normalForm at h
  have h1 := Bool.and_eq_true_iff.mp h
  have h2 := Bool.and_eq_true_iff.mp h1.1
  have h3 := Bool.and_eq_true_iff.mp h2.1
  have hall : ∀ c ∈ l, goodCh c = true := List.all_eq_true.mp h3.1
  have hnd : noDoubleSp l = true := h3.2
  have hfs : firstNotSp l = true := h2.2
  have hts : trailNotSp l = true := h1.2
  have hkeep : ∀ c ∈ l, keepCh c = true := by
    intro c hc
    have := Bool.and_eq_true_iff.mp (Bool.and_eq_true_iff.mp (hall c hc)).1
    exact this.1
  have hfix : ∀ c ∈ l, pyLower c = c := by
    intro c hc
    have := Bool.and_eq_true_iff.mp (Bool.and_eq_true_iff.mp (hall c hc)).1
    exact beq_iff_eq.mp this.2
  have hsp : ∀ c ∈ l, isSp c = true → c = ' ' := by
    intro c hc hcsp
    have := (Bool.and_eq_true_iff.mp (hall c hc)).2
    rcases Bool.or_eq_true_iff.mp this with h4 | h4
    · rw [hcsp] at h4
      simp at h4
    · exact beq_iff_eq.mp h4
  unfold normalizeName stripWs stripEnds
  rw [map_fixed_of_mem l hfix, filter_fixed_of_mem l hkeep,
    collapseWs_fixed l false hsp hnd (fun hfalse => absurd hfalse (by simp)),
    dropWhile_isSp_fixed l hfs, dropTrailing_isSp_fixed l hts]

/-- Claim C4: `normalize_name` is idempotent: for every string `s`,
normalizing twice equals normalizing once; every string input, including the
empty string, is accepted and mapped to a (possibly empty) normalized
string. -/
theorem normalize_name_idempotent (s : String) :
    normalize_name (normalize_name s) = normalize_name s := by
  unfold normalize_name
  rw [show (String.mk (normalizeName s.data)).data = normalizeName s.data from rfl]
  rw [normalizeName_fixed _ (normalForm_normalizeName s.data)]

theorem lexLt_asymm : ∀ a b : List Char, lexLt a b = true → lexLt b a = false := by
  intro a
  induction a with
  | nil =>
    intro b h
    cases b with
    | nil => simp [lexLt] at h
    | cons y ys => rfl
  | cons x xs ih =>
    intro b h
    cases b with
    | nil => simp [lexLt] at h
    | cons y ys =>
      unfold lexLt at h ⊢
      rcases lt_trichotomy x y with hxy | hxy | hxy
      · simp [hxy, lt_asymm hxy]
      · subst hxy
        simp [lt_irrefl] at h ⊢
        exact ih ys h
      · simp [hxy, lt_asymm hxy] at h

theorem lexLt_trans : ∀ a b c : List Char,
    lexLt a b = true → lexLt b c = true → lexLt a c = true := by
  intro a
  induction a with
  | nil =>
    intro b c h1 h2
    cases b with
    | nil => simp [lexLt] at h1
    | cons y ys =>
      cases c with
      | nil => simp [lexLt] at h2
      | cons z zs => rfl
  | cons x xs ih =>
    intro b c h1 h2
    cases b with
    | nil => simp [lexLt] at h1
    | cons y ys =>
      cases c with
      | nil => simp [lexLt] at h2
      | cons z zs =>
        unfold lexLt at h1 h2 ⊢
        rcases lt_trichotomy x y with hxy | hxy | hxy
        · rcases lt_trichotomy y z with hyz | hyz | hyz
          · simp [lt_trans hxy hyz]
          · subst hyz
            simp [hxy]
          · simp [lt_asymm hyz, hyz] at h2
        · subst hxy
          rcases lt_trichotomy x z with hxz | hxz | hxz
          · simp [hxz]
          · subst hxz
            simp [lt_irrefl] at h1 h2 ⊢
            exact ih ys zs h1 h2
          · simp [lt_asymm hxz, hxz] at h2
        · simp [lt_asymm hxy, hxy] at h1

theorem lexLt_eq_of_not : ∀ a b : List Char,
    lexLt a b = false → lexLt b a = false → a = b := by
  intro a
  induction a with
  | nil =>
    intro b h1 _
    cases b with
    | nil => rfl
    | cons y ys => simp [lexLt] at h1
  | cons x xs ih =>
    intro b h1 h2
    cases b with
    | nil => simp [lexLt] at h2
    | cons y ys =>
      unfold lexLt at h1 h2
      rcases lt_trichotomy x y with hxy | hxy | hxy
      · simp [hxy] at h1
      · subst hxy
        simp [lt_irrefl] at h1 h2
        rw [ih ys h1 h2]
      · simp [hxy, lt_asymm hxy] at h2

theorem keyLt_eq_false_iff (x y : List Char × PStats) :
    keyLt x y = false ↔
      x.2.accepted ≤ y.2.accepted ∧
        (x.2.accepted = y.2.accepted →
          lexLt x.2.display_name y.2.display_name = false) := by
  unfold keyLt
  constructor
  · intro h
    have h2 := Bool.or_eq_false_iff.mp h
    refine ⟨Nat.not_lt.mp (of_decide_eq_false h2.1), ?_⟩
    intro heq
    have h3 := h2.2
    cases hlex : lexLt x.2.display_name y.2.display_name
    · rfl
    · rw [beq_iff_eq.mpr heq, hlex] at h3
      simp at h3
  · intro h
    obtain ⟨hle, him⟩ := h
    refine Bool.or_eq_false_iff.mpr ⟨decide_eq_false (Nat.not_lt.mpr hle), ?_⟩
    by_cases heq : x.2.accepted = y.2.accepted
    · rw [beq_iff_eq.mpr heq, him heq]
      rfl
    · rw [beq_eq_false_iff_ne.mpr heq]
      rfl

theorem keyLt_eq_true_iff (x y : List Char × PStats) :
    keyLt x y = true ↔
      y.2.accepted < x.2.accepted ∨
        (x.2.accepted = y.2.accepted ∧
          lexLt x.2.display_name y.2.display_name = true) := by
  unfold keyLt
  simp [Bool.or_eq_true_iff, Bool.and_eq_true_iff, beq_iff_eq]

theorem keyLt_asymm (x y : List Char × PStats) (h : keyLt x y = true) :
    keyLt y x = false := by
  rcases (keyLt_eq_true_iff x y).mp h with h1 | h1
  · refine (keyLt_eq_false_iff y x).mpr ⟨Nat.le_of_lt h1, ?_⟩
    intro heq
    omega
  · refine (keyLt_eq_false_iff y x).mpr ⟨Nat.le_of_eq h1.1.symm, ?_⟩
    intro _
    exact lexLt_asymm _ _ h1.2

theorem keyLt_trans (x y z : List Char × PStats)
    (h1 : keyLt x y = true) (h2 : keyLt y z = true) : keyLt x z = true := by
  rcases (keyLt_eq_true_iff x y).mp h1 with ha | ha
  · rcases (keyLt_eq_true_iff y z).mp h2 with hb | hb
    · exact (keyLt_eq_true_iff x z).mpr (Or.inl (Nat.lt_trans hb ha))
    · refine (keyLt_eq_true_iff x z).mpr (Or.inl ?_)
      omega
  · rcases (keyLt_eq_true_iff y z).mp h2 with hb | hb
    · refine (keyLt_eq_true_iff x z).mpr (Or.inl ?_)
      omega
    · refine (keyLt_eq_true_iff x z).mpr (Or.inr ⟨ha.1.trans hb.1, ?_⟩)
      exact lexLt_trans _ _ _ ha.2 hb.2

theorem keyLt_false_trans (x y z : List Char × PStats)
    (h1 : keyLt y x = false) (h2 : keyLt z y = false) : keyLt z x = false := by
  obtain ⟨hle1, him1⟩ := (keyLt_eq_false_iff y x).mp h1
  obtain ⟨hle2, him2⟩ := (keyLt_eq_false_iff z y).mp h2
  refine (keyLt_eq_false_iff z x).mpr ⟨Nat.le_trans hle2 hle1, ?_⟩
  intro heq
  have hyz : z.2.accepted = y.2.accepted := by omega
  have hyx : y.2.accepted = x.2.accepted := by omega
  have hlex1 := him1 hyx
  have hlex2 := him2 hyz
  by_cases hzx : lexLt z.2.display_name x.2.display_name = true
  · by_cases hxy : lexLt x.2.display_name y.2.display_name = true
    · have := lexLt_trans _ _ _ hzx hxy
      rw [this] at hlex2
      simp at hlex2
    · have hxyf : lexLt x.2.display_name y.2.display_name = false :=
        Bool.eq_false_iff.mpr hxy
      have hEq : x.2.display_name = y.2.display_name :=
        lexLt_eq_of_not _ _ hxyf hlex1
      rw [hEq] at hzx
      rw [hzx] at hlex2
      simp at hlex2
  · exact Bool.eq_false_iff.mpr hzx

theorem mem_insSorted (a x : List Char × PStats) :
    ∀ l, x ∈ insSorted a l ↔ x = a ∨ x ∈ l := by
  intro l
  induction l with
  | nil => simp [insSorted]
  | cons b bs ih =>
    unfold insSorted
    by_cases hab : keyLt a b = true
    · rw [if_pos hab]
      simp [List.mem_cons]
    · rw [if_neg hab]
      simp [List.mem_cons, ih]
      tauto

theorem pairwise_insSorted (a : List Char × PStats) :
    ∀ l, List.Pairwise (fun x y => keyLt y x = false) l →
      List.Pairwise (fun x y => keyLt y x = false) (insSorted a l) := by
  intro l
  induction l with
  | nil =>
    intro _
    exact List.pairwise_singleton _ _
  | cons b bs ih =>
    intro hp
    have hp' := List.pairwise_cons.mp hp
    unfold insSorted
    by_cases hab : keyLt a b = true
    · rw [if_pos hab]
      refine List.pairwise_cons.mpr ⟨?_, hp⟩
      intro y hy
      rcases List.mem_cons.mp hy with heq | hmem
      · rw [heq]
        exact keyLt_asymm a b hab
      · have hyb := hp'.1 y hmem
        cases hya : keyLt y a
        · rfl
        · exfalso
          have hcontr := keyLt_trans y a b hya hab
          rw [hcontr] at hyb
          simp at hyb
    · rw [if_neg hab]
      refine List.pairwise_cons.mpr ⟨?_, ih hp'.2⟩
      intro y hy
      rcases (mem_insSorted a y bs).mp hy with heq | hmem
      · rw [heq]
        exact Bool.eq_false_iff.mpr hab
      · exact hp'.1 y hmem

theorem pairwise_pySort (l : List (List Char × PStats)) :
    List.Pairwise (fun x y => keyLt y x = false) (pySort l) := by
  unfold pySort
  suffices h : ∀ (acc : List (List Char × PStats)),
      List.Pairwise (fun x y => keyLt y x = false) acc →
      List.Pairwise (fun x y => keyLt y x = false)
        (l.foldl (fun acc x => insSorted x acc) acc) by
    exact h [] List.Pairwise.nil
  induction l with
  | nil =>
    intro acc h
    exact h
  | cons e rest ih =>
    intro acc h
    rw [List.foldl_cons]
    exact ih _ (pairwise_insSorted e acc h)

theorem mem_pySort (l : List (List Char × PStats)) (x : List Char × PStats) :
    x ∈ pySort l ↔ x ∈ l := by
  unfold pySort
  suffices h : ∀ acc, x ∈ l.foldl (fun acc x => insSorted x acc) acc ↔
      x ∈ acc ∨ x ∈ l by
    simpa using h []
  induction l with
  | nil =>
    intro acc
    simp
  | cons e rest ih =>
    intro acc
    rw [List.foldl_cons, ih (insSorted e acc), mem_insSorted]
    simp [List.mem_cons]
    tauto

/-- Claim C5: the leaderboard ranking contains exactly the aggregated
participants and is sorted primarily by descending accepted count; between
any two entries with equal accepted counts, the earlier one never has the
lexicographically larger display name, so the participant with the smaller
display name ranks first, regardless of scan or insertion order. -/
theorem leaderboard_sort_order (evts : List EventEntry) :
    List.Pairwise
      (fun x y => y.2.accepted ≤ x.2.accepted ∧
        (x.2.accepted = y.2.accepted →
          lexLt y.2.display_name x.2.display_name = false))
      (sortedParticipants evts) ∧
    (∀ x, x ∈ sortedParticipants evts ↔ x ∈ getAllParticipants evts) := by
  constructor
  · have hp := pairwise_pySort (getAllParticipants evts)
    refine hp.imp ?_
    intro x y h
    obtain ⟨h1, h2⟩ := (keyLt_eq_false_iff y x).mp h
    exact ⟨h1, fun heq => h2 heq.symm⟩
  · intro x
    exact mem_pySort (getAllParticipants evts) x

theorem updateKey_cons (k' : List Char) (f : PStats → PStats)
    (kv : List Char × PStats) (rest : PMap) :
    updateKey k' f (kv :: rest) =
      (if kv.1 = k' then (kv.1, f kv.2) else kv) :: updateKey k' f rest := by
  unfold updateKey
  rw [List.map_cons]

theorem alLookup_append_single (k k' : List Char) (v : PStats) :
    ∀ m : PMap, alLookup k (m ++ [(k', v)]) =
      match alLookup k m with
      | some w => some w
      | none => if k' = k then some v else none := by
  intro m
  induction m with
  | nil => simp [alLookup]
  | cons kv rest ih =>
    rw [List.cons_append]
    unfold alLookup
    by_cases hk : kv.1 = k
    · rw [if_pos hk, if_pos hk]
    · rw [if_neg hk, if_neg hk]
      exact ih

theorem alLookup_updateKey (k k' : List Char) (f : PStats → PStats) :
    ∀ m : PMap, alLookup k (updateKey k' f m) =
      if k' = k then (alLookup k m).map f else alLookup k m := by
  intro m
  induction m with
  | nil => simp [alLookup, updateKey]
  | cons kv rest ih =>
    rw [updateKey_cons]
    by_cases hk1 : kv.1 = k' <;> by_cases hk2 : kv.1 = k
    · have hkk : k' = k := hk1.symm.trans hk2
      simp [alLookup, hk1, hk2, hkk]
    · have hkk : k' ≠ k := fun h => hk2 (hk1.trans h)
      simp [alLookup, hk1, hk2, hkk, ih]
    · have hkk : k' ≠ k := fun h => hk1 (hk2.trans h.symm)
      simp [alLookup, hk1, hk2, hkk, Ne.symm hkk]
    · simp [alLookup, hk1, hk2, ih]

theorem alLookup_procPair (isAcc : Bool) (k : List Char) (m : PMap)
    (p : List Char × List Char) :
    alLookup k (procPair isAcc m p) =
      if p.1 = k then
        some (bumpStat isAcc ((alLookup k m).getD ⟨p.2, 0, 0⟩))
      else alLookup k m := by
  unfold procPair
  by_cases hk : p.1 = k
  · subst hk
    cases hm : alLookup p.1 m with
    | some st => simp [hm, alLookup_updateKey]
    | none => simp [hm, alLookup_updateKey, alLookup_append_single]
  · cases hm : alLookup p.1 m with
    | some st => simp [hm, alLookup_updateKey, hk]
    | none =>
      cases h2 : alLookup k m with
      | some w => simp [hm, h2, alLookup_updateKey, alLookup_append_single, hk]
      | none => simp [hm, h2, alLookup_updateKey, alLookup_append_single, hk]

theorem cntTag_cons (b : Bool) (k : List Char)
    (tp : Bool × (List Char × List Char))
    (rest : List (Bool × (List Char × List Char))) :
    cntTag b k (tp :: rest) =
      (if tp.1 = b ∧ tp.2.1 = k then 1 else 0) + cntTag b k rest := by
  unfold cntTag
  rw [List.filter_cons]
  by_cases h : tp.1 = b ∧ tp.2.1 = k
  · simp [h, Nat.add_comm]
  · simp [h]

theorem firstDisp_cons (k : List Char) (tp : Bool × (List Char × List Char))
    (rest : List (Bool × (List Char × List Char))) :
    firstDisp k (tp :: rest) =
      if tp.2.1 = k then some tp.2.2 else firstDisp k rest := by
  unfold firstDisp
  rw [List.filter_cons]
  by_cases h : tp.2.1 = k
  · simp [h]
  · simp [h]

theorem alLookup_foldl_procTag (k : List Char) :
    ∀ (ps : List (Bool × (List Char × List Char))) (m : PMap),
      alLookup k (ps.foldl procTag m) =
        match alLookup k m with
        | some st => some ⟨st.display_name, st.accepted + cntTag true k ps,
            st.declined + cntTag false k ps⟩
        | none =>
          match firstDisp k ps with
          | none => none
          | some d => some ⟨d, cntTag true k ps, cntTag false k ps⟩ := by
  intro ps
  induction ps with
  | nil =>
    intro m
    cases h : alLookup k m with
    | none => simp [cntTag, firstDisp, h]
    | some st => simp [cntTag, firstDisp, h]
  | cons tp rest ih =>
    intro m
    rw [List.foldl_cons, ih (procTag m tp)]
    rw [show procTag m tp = procPair tp.1 m tp.2 from rfl]
    rw [alLookup_procPair]
    rw [cntTag_cons, cntTag_cons, firstDisp_cons]
    by_cases hk : tp.2.1 = k
    · cases hm : alLookup k m with
      | some st =>
        cases htag : tp.1 <;> simp [bumpStat, hm, htag, hk, Nat.add_assoc]
      | none =>
        cases htag : tp.1 <;> simp [bumpStat, hm, htag, hk]
    · cases hm : alLookup k m with
      | some st => simp [hm, hk]
      | none => simp [hm, hk]

theorem getAll_eq_foldl_flat (evts : List EventEntry) :
    getAllParticipants evts = (flatPairs evts).foldl procTag [] := by
  unfold getAllParticipants flatPairs
  suffices h : ∀ (m : PMap),
      evts.foldl (fun m e => e.declined.foldl (procPair false)
        (e.accepted.foldl (procPair true) m)) m =
      (evts.foldr (fun e acc => e.accepted.map (fun p => (true, p)) ++
        e.declined.map (fun p => (false, p)) ++ acc) []).foldl procTag m by
    exact h []
  induction evts with
  | nil =>
    intro m
    rfl
  | cons e rest ih =>
    intro m
    rw [List.foldl_cons,
      ih (e.declined.foldl (procPair false) (e.accepted.foldl (procPair true) m))]
    rw [List.foldr_cons, List.foldl_append, List.foldl_append,
      List.foldl_map, List.foldl_map]
    simp [procTag]

theorem alLookup_mem (k : List Char) (v : PStats) : ∀ m : PMap,
    alLookup k m = some v → (k, v) ∈ m := by
  intro m
  induction m with
  | nil =>
    intro h
    simp [alLookup] at h
  | cons kv rest ih =>
    intro h
    unfold alLookup at h
    by_cases hk : kv.1 = k
    · rw [if_pos hk] at h
      have h2 := Option.some.inj h
      refine List.mem_cons.mpr (Or.inl ?_)
      rw [← hk, ← h2]
    · rw [if_neg hk] at h
      exact List.mem_cons_of_mem _ (ih h)

/-- Counterexample to C7 as stated: the key "bob" occurs in two windowed
events with raw spellings "Bob" (first) and "BOB" (second);
`get_all_participants` reports "Bob", the FIRST-scanned spelling, not the
most recent one. -/
theorem display_name_last_write_cx :
    (alLookup "bob".data (getAllParticipants
      [⟨1, [("bob".data, "Bob".data)], [], "t1".data⟩,
       ⟨2, [("bob".data, "BOB".data)], [], "t2".data⟩])).map PStats.display_name =
      some "Bob".data ∧
    (alLookup "bob".data (getAllParticipants
      [⟨1, [("bob".data, "Bob".data)], [], "t1".data⟩,
       ⟨2, [("bob".data, "BOB".data)], [], "t2".data⟩])).map PStats.display_name ≠
      some "BOB".data := by
  decide

/-- Claim C7 (amended): in `EventLog.get_all_participants`, the display name
reported for a normalized key is the one from the FIRST-scanned occurrence
of that key (accepted pairs before declined pairs within an event); later
occurrences only increment counters and do not overwrite the stored display
name, so the first-scanned spelling wins. -/
theorem display_name_first_write (evts : List EventEntry) (k : List Char) :
    (alLookup k (getAllParticipants evts)).map PStats.display_name =
      firstDisp k (flatPairs evts) := by
  rw [getAll_eq_foldl_flat, alLookup_foldl_procTag]
  cases h : firstDisp k (flatPairs evts) <;> simp [alLookup, h]

/-- Counterexample to C6 as stated: a participant occurring only in a
declined list is a member of `sorted_participants`, the list the leaderboard
prints as its primary accepted ranking (attbot.py lines 974-977 print every
entry), so it DOES appear in the primary ranking. -/
theorem declined_only_in_primary_cx :
    ("ray".data, (⟨"Ray".data, 0, 1⟩ : PStats)) ∈
      sortedParticipants [⟨500, [], [("ray".data, "Ray".data)], "t".data⟩] ∧
    ("ray".data, (⟨"Ray".data, 0, 1⟩ : PStats)) ∈
      declinedOnlyList [⟨500, [], [("ray".data, "Ray".data)], "t".data⟩] := by
  decide

/-- Claim C6 (amended): a participant who across all windowed events occurs
only in declined lists (no accepted occurrence, at least one declined
occurrence) appears in the leaderboard's declined-only section with accepted
count 0, and ALSO appears in the primary ranking list (attbot's leaderboard
prints every sorted participant, it does not exclude declined-only ones). -/
theorem declined_only_participant (evts : List EventEntry) (k d : List Char)
    (hacc : cntTag true k (flatPairs evts) = 0)
    (hdec : 0 < cntTag false k (flatPairs evts))
    (hd : firstDisp k (flatPairs evts) = some d) :
    (k, (⟨d, 0, cntTag false k (flatPairs evts)⟩ : PStats)) ∈
      declinedOnlyList evts ∧
    (k, (⟨d, 0, cntTag false k (flatPairs evts)⟩ : PStats)) ∈
      sortedParticipants evts := by
  have hlook : alLookup k (getAllParticipants evts) =
      some ⟨d, 0, cntTag false k (flatPairs evts)⟩ := by
    rw [getAll_eq_foldl_flat, alLookup_foldl_procTag]
    simp [alLookup, hd, hacc]
  have hmem : (k, (⟨d, 0, cntTag false k (flatPairs evts)⟩ : PStats)) ∈
      getAllParticipants evts := alLookup_mem _ _ _ hlook
  have hmemSorted : (k, (⟨d, 0, cntTag false k (flatPairs evts)⟩ : PStats)) ∈
      sortedParticipants evts :=
    (mem_pySort _ _).mpr hmem
  refine ⟨?_, hmemSorted⟩
  unfold declinedOnlyList
  refine List.mem_filter.mpr ⟨hmemSorted, ?_⟩
  simp [hdec]

/-- Witness for C6 (amended): sam declines event 3 and never accepts; sam is
listed in both the declined-only section and the primary ranking. -/
theorem declined_only_participant_w :
    ("sam".data, (⟨"Sam".data, 0,
      cntTag false "sam".data (flatPairs
        [⟨3, [("amy".data, "Amy".data)], [("sam".data, "Sam".data)], "t".data⟩])⟩ :
        PStats)) ∈
      declinedOnlyList
        [⟨3, [("amy".data, "Amy".data)], [("sam".data, "Sam".data)], "t".data⟩] ∧
    ("sam".data, (⟨"Sam".data, 0,
      cntTag false "sam".data (flatPairs
        [⟨3, [("amy".data, "Amy".data)], [("sam".data, "Sam".data)], "t".data⟩])⟩ :
        PStats)) ∈
      sortedParticipants
        [⟨3, [("amy".data, "Amy".data)], [("sam".data, "Sam".data)], "t".data⟩] :=
  declined_only_participant
    [⟨3, [("amy".data, "Amy".data)], [("sam".data, "Sam".data)], "t".data⟩]
    "sam".data "Sam".data (by decide) (by decide) (by decide)
